import Mathlib

/-!
# codcodog/cache: an in-process key-value cache with time-based expiration

A shallow embedding of `cache.go` and the properties of its operations.

* A Go `string` is a finite sequence of bytes; it is modelled as a list of
  naturals (`GoString`), the bytes being the entries below 256.
* `interface{}` values are modelled as `Option V`: `none` is Go's `nil`.
* `time.Now()` is an explicit argument: a clock reading in nanoseconds since the
  Unix epoch.  A `time.Duration` is a number of nanoseconds.
* In the functional model every operation is one atomic step on the state, which
  is what holding the `sync.RWMutex` gives a single caller; what each method does
  to the mutex is modelled apart, as its sequence of lock steps and map accesses.
* The map `items` is a key-unique association list (`AList`).
-/

namespace CodCache

/-! ## Strings and time -/

/-- A Go string: its bytes, in order. -/
abbrev GoString := List Nat

/-- The bytes of an ASCII literal. -/
def ascii (s : String) : GoString := s.toList.map Char.toNat

/-- The constant `time.Second`, a duration in nanoseconds. -/
def Second : Int := 1000000000

/-- The method `time.Time.Add`: the clock reading `d` nanoseconds after `t`.  Go keeps
the seconds of a `Time` in an `int64`; the sum is exact for every clock reading whose
distance from the range of `int64` seconds exceeds the longest `Duration` (about 292
years), which covers every reading of `time.Now()`. -/
def Add (t d : Int) : Int := t + d

/-- The method `time.Time.Unix`: whole seconds since the epoch, rounded down. -/
def Unix (t : Int) : Int := t / Second

/-! ## Data model -/

/-- The struct `Item`: a stored value and its expiry in Unix seconds. -/
structure Item (V : Type) where
  Val : Option V
  Expire : Int
deriving DecidableEq

/-- The method `Item.Expired`, with the reading of `time.Now()` as `now`. -/
def Item.Expired {V : Type} (i : Item V) (now : Int) : Bool :=
  decide (i.Expire < Unix now)

/-- The struct `cache` without its mutex. -/
structure cache (V : Type) where
  items : AList (fun _ : GoString => Item V)
  maxMemory : Int
deriving DecidableEq

/-- The constructor `NewCache`: an empty map and the zero value of `maxMemory`.
The background goroutine it starts is not part of the returned state. -/
def NewCache {V : Type} : cache V :=
  { items := ∅, maxMemory := 0 }

/-! ## Operations -/

/-- The method `isOutOfMemeory`. -/
def cache.isOutOfMemeory {V : Type} (c : cache V) : Bool :=
  let n := c.items.entries.length
  if n = 0 then
    false
  else
    false

/-- The method `Set`, with the reading of `time.Now()` as `now`. -/
def cache.Set {V : Type} (c : cache V) (now : Int) (key : GoString) (val : Option V)
    (expire : Int) : cache V :=
  if c.isOutOfMemeory then
    c
  else
    let e := Unix (Add now expire)
    let item : Item V := { Val := val, Expire := e }
    { c with items := c.items.insert key item }

/-- The method `Get`, with the reading of `time.Now()` as `now`: the returned pair
and the state it leaves. -/
def cache.Get {V : Type} (c : cache V) (now : Int) (key : GoString) :
    (Option V × Bool) × cache V :=
  match c.items.lookup key with
  | none => ((none, false), c)
  | some item =>
    if item.Expired now then
      ((none, false), { c with items := c.items.erase key })
    else
      ((item.Val, true), c)

/-- The method `Del`: the returned flag and the state it leaves. -/
def cache.Del {V : Type} (c : cache V) (key : GoString) : Bool × cache V :=
  match c.items.lookup key with
  | some _ => (true, { c with items := c.items.erase key })
  | none => (false, c)

/-- The method `Exists`. -/
def cache.Exists {V : Type} (c : cache V) (key : GoString) : Bool :=
  match c.items.lookup key with
  | some _ => true
  | none => false

/-- The method `Flush`: the returned flag and the state it leaves. -/
def cache.Flush {V : Type} (c : cache V) : Bool × cache V :=
  (true, { c with items := ∅ })

/-- The method `Keys`. -/
def cache.Keys {V : Type} (c : cache V) : Int :=
  (c.items.entries.length : Int)

/-! ## Capacity: constants, machine integers, slices -/

/-- The constant `KB`. -/
def KB : Int := 1024

/-- The constant `MB`. -/
def MB : Int := 1024 * 1024

/-- The constant `GB`. -/
def GB : Int := 1024 * 1024 * 1024

/-- The value an `int64` holds after an arithmetic result `x`: `x` wrapped into
`[-2^63, 2^63)`. -/
def wrapInt64 (x : Int) : Int := (x + 2 ^ 63) % 2 ^ 64 - 2 ^ 63

/-- A run-time panic of the Go program. -/
inductive Panic where
  | sliceBoundsOutOfRange
deriving DecidableEq

deriving instance DecidableEq for Except

/-- The slice expression `s[lo:hi]` on a string: it panics unless
`0 ≤ lo ≤ hi ≤ len(s)`. -/
def slice (s : GoString) (lo hi : Int) : Except Panic GoString :=
  if 0 ≤ lo ∧ lo ≤ hi ∧ hi ≤ (s.length : Int) then
    .ok ((s.drop lo.toNat).take (hi.toNat - lo.toNat))
  else
    .error Panic.sliceBoundsOutOfRange

/-! ## The library function `strconv.ParseInt(s, 10, 64)` -/

/-- The two errors of `strconv`: `ErrSyntax` and `ErrRange`. -/
inductive NumError where
  | ErrSyntax
  | ErrRange
deriving DecidableEq

/-- The largest `uint64`. -/
def maxUint64 : Nat := 2 ^ 64 - 1

/-- The function `lower` of `strconv`: `c | ('x' - 'X')`. -/
def lower (c : Nat) : Nat := c ||| 32

/-- The digit loop of `strconv.ParseUint` for base 10 and bit size 64, from the
accumulator `n`: the returned value and error. -/
def parseUintLoop : Nat → GoString → Nat × Option NumError
  | n, [] => (n, none)
  | n, c :: cs =>
    if 48 ≤ c ∧ c ≤ 57 then
      let d := c - 48
      if d ≥ 10 then
        (0, some NumError.ErrSyntax)
      else if n ≥ maxUint64 / 10 + 1 then
        (maxUint64, some NumError.ErrRange)
      else
        let n10 := n * 10
        let n1 := (n10 + d) % 2 ^ 64
        if n1 < n10 ∨ n1 > maxUint64 then
          (maxUint64, some NumError.ErrRange)
        else
          parseUintLoop n1 cs
    else if 97 ≤ lower c ∧ lower c ≤ 122 then
      let d := lower c - 97 + 10
      if d ≥ 10 then
        (0, some NumError.ErrSyntax)
      else
        (0, some NumError.ErrSyntax)
    else
      (0, some NumError.ErrSyntax)

/-- The function `strconv.ParseUint(s, 10, 64)`: the returned value and error. -/
def ParseUint (s : GoString) : Nat × Option NumError :=
  if s = [] then
    (0, some NumError.ErrSyntax)
  else
    parseUintLoop 0 s

/-- The function `strconv.ParseInt(s, 10, 64)`: the returned value and error. -/
def ParseInt (s : GoString) : Int × Option NumError :=
  match s with
  | [] => (0, some NumError.ErrSyntax)
  | s0 :: rest =>
    let neg := decide (s0 = 45)
    let digits := if s0 = 43 then rest else if s0 = 45 then rest else s
    let r := ParseUint digits
    if r.2 = some NumError.ErrSyntax then
      (0, r.2)
    else
      let un := r.1
      let cutoff : Nat := 2 ^ 63
      if neg = false ∧ un ≥ cutoff then
        ((cutoff : Int) - 1, some NumError.ErrRange)
      else if neg = true ∧ un > cutoff then
        (-(cutoff : Int), some NumError.ErrRange)
      else
        let n := wrapInt64 un
        if neg then (wrapInt64 (-n), none) else (n, none)

/-! ## The library function `strings.ToUpper` -/

/-- The rune `utf8.RuneError`, U+FFFD. -/
def RuneError : Nat := 65533

/-- The function `utf8.DecodeRuneInString`: the first rune of `s` and its width in
bytes.  An invalid or truncated encoding gives `(RuneError, 1)`. -/
def DecodeRuneInString (s : GoString) : Nat × Nat :=
  match s with
  | [] => (RuneError, 0)
  | s0 :: t =>
    if s0 < 128 then (s0, 1)
    else if s0 < 194 ∨ 245 ≤ s0 then (RuneError, 1)
    else
      let sz : Nat := if s0 < 224 then 2 else if s0 < 240 then 3 else 4
      let lo : Nat := if s0 = 224 then 160 else if s0 = 240 then 144 else 128
      let hi : Nat := if s0 = 237 then 159 else if s0 = 244 then 143 else 191
      if s.length < sz then (RuneError, 1)
      else
        match t with
        | [] => (RuneError, 1)
        | s1 :: t1 =>
          if s1 < lo ∨ hi < s1 then (RuneError, 1)
          else if sz ≤ 2 then ((s0 % 32) * 64 + s1 % 64, 2)
          else
            match t1 with
            | [] => (RuneError, 1)
            | s2 :: t2 =>
              if s2 < 128 ∨ 191 < s2 then (RuneError, 1)
              else if sz ≤ 3 then ((s0 % 16) * 4096 + (s1 % 64) * 64 + s2 % 64, 3)
              else
                match t2 with
                | [] => (RuneError, 1)
                | s3 :: _ =>
                  if s3 < 128 ∨ 191 < s3 then (RuneError, 1)
                  else ((s0 % 8) * 262144 + (s1 % 64) * 4096 + (s2 % 64) * 64 + s3 % 64, 4)

/-- The function `utf8.AppendRune` on a rune that is not negative: its UTF-8
encoding; surrogates and values above U+10FFFF are encoded as U+FFFD. -/
def AppendRune (r : Nat) : GoString :=
  if r < 128 then [r]
  else if r ≤ 2047 then [192 + r / 64, 128 + r % 64]
  else if 1114111 < r ∨ (55296 ≤ r ∧ r ≤ 57343) then [239, 191, 189]
  else if r ≤ 65535 then [224 + r / 4096, 128 + r / 64 % 64, 128 + r % 64]
  else [240 + r / 262144, 128 + r / 4096 % 64, 128 + r / 64 % 64, 128 + r % 64]

/-- The function `unicode.ToUpper`; `upperCase` stands for `unicode.To(UpperCase, r)`,
the lookup in the case tables of the Unicode database. -/
def unicodeToUpper (upperCase : Nat → Nat) (r : Nat) : Nat :=
  if r ≤ 127 then
    if 97 ≤ r ∧ r ≤ 122 then r - 32 else r
  else
    upperCase r

/-- The call `strings.Map(unicode.ToUpper, s)`, on the bytes left to read: every rune
of `s` is decoded, mapped and encoded again; a byte that is not part of a valid
encoding is read as U+FFFD.  The fuel bounds the number of runes. -/
def mapToUpper (upperCase : Nat → Nat) : Nat → GoString → GoString
  | 0, _ => []
  | fuel + 1, s =>
    if s = [] then []
    else
      let d := DecodeRuneInString s
      AppendRune (unicodeToUpper upperCase d.1) ++ mapToUpper upperCase fuel (s.drop d.2)

/-- The function `strings.ToUpper`: the ASCII fast path, and `strings.Map` otherwise. -/
def ToUpper (upperCase : Nat → Nat) (s : GoString) : GoString :=
  let isASCII := s.all (fun c => decide (c < 128))
  let hasLower := s.any (fun c => decide (97 ≤ c ∧ c ≤ 122))
  if isASCII then
    if !hasLower then s
    else s.map (fun c => if 97 ≤ c ∧ c ≤ 122 then c - 32 else c)
  else
    mapToUpper upperCase s.length s

/-! ## SetMaxMemory -/

/-- The method `SetMaxMemory`: a panic, or the returned flag and the state it leaves.
`upperCase` is the case table of the Unicode database used by `strings.ToUpper`. -/
def cache.SetMaxMemory {V : Type} (upperCase : Nat → Nat) (c : cache V) (size : GoString) :
    Except Panic (Bool × cache V) :=
  if size = [] then
    .ok (false, c)
  else
    let length : Int := size.length
    match slice size 0 (length - 2), slice size (length - 2) length with
    | .error e, _ => .error e
    | .ok _, .error e => .error e
    | .ok numStr, .ok unitStr =>
      let r := ParseInt numStr
      if r.2 ≠ none then
        .ok (false, c)
      else
        let num := r.1
        let unit := ToUpper upperCase unitStr
        if unit = ascii "KB" then
          .ok (true, { c with maxMemory := wrapInt64 (num * KB) })
        else if unit = ascii "MB" then
          .ok (true, { c with maxMemory := wrapInt64 (num * MB) })
        else if unit = ascii "GB" then
          .ok (true, { c with maxMemory := wrapInt64 (num * GB) })
        else
          .ok (false, c)

/-! ## The accepted size strings, as the specification words them -/

/-- The decimal value of a digit string read after the accumulator `n`. -/
def decimalFrom (n : Nat) (ds : GoString) : Nat :=
  ds.foldl (fun a d => 10 * a + (d - 48)) n

/-- Every byte is one of `'0'`..`'9'`. -/
def allDigits (ds : GoString) : Bool :=
  ds.all (fun d => decide (48 ≤ d ∧ d ≤ 57))

/-- A decimal integer in the `int64` range: an optional sign `+` or `-`, then one or
more decimal digits whose value is at most `2^63 - 1`, or at most `2^63` after `-`. -/
def isInt64Literal (s : GoString) : Bool :=
  match s with
  | 45 :: ds => decide (ds ≠ []) && allDigits ds && decide (decimalFrom 0 ds ≤ 2 ^ 63)
  | 43 :: ds => decide (ds ≠ []) && allDigits ds && decide (decimalFrom 0 ds ≤ 2 ^ 63 - 1)
  | ds => decide (ds ≠ []) && allDigits ds && decide (decimalFrom 0 ds ≤ 2 ^ 63 - 1)

/-- The integer a decimal literal denotes. -/
def int64LiteralValue (s : GoString) : Int :=
  match s with
  | 45 :: ds => -(decimalFrom 0 ds : Int)
  | 43 :: ds => (decimalFrom 0 ds : Int)
  | ds => (decimalFrom 0 ds : Int)

/-- The multiplier of a two-character unit `KB`, `MB` or `GB` written in any letter
case: 1024, 1024² or 1024³; no multiplier for any other string. -/
def unitFactor (u : GoString) : Option Int :=
  match u with
  | [a, b] =>
    if b = 66 ∨ b = 98 then
      if a = 75 ∨ a = 107 then some 1024
      else if a = 77 ∨ a = 109 then some (1024 * 1024)
      else if a = 71 ∨ a = 103 then some (1024 * 1024 * 1024)
      else none
    else none
  | _ => none

/-- A size string as the specification describes it, with the integer read as
`strconv.ParseInt` reads it: a decimal integer in the `int64` range immediately
followed by a two-character unit. -/
def isSizeSpec (s : GoString) : Bool :=
  decide (2 ≤ s.length) && isInt64Literal (s.take (s.length - 2))
    && (unitFactor (s.drop (s.length - 2))).isSome

/-! ## The sweep -/

/-- The `range` loop of `deleteExpired` on the map `items`.  `visits` lists the keys in
the order in which the iteration yields them, each with the reading of `time.Now()`
made by the call of `Expired` in that iteration: Go leaves the order of a map
iteration unspecified, and `Expired` reads the clock anew in every iteration. -/
def deleteExpiredLoop {V : Type} (items : AList (fun _ : GoString => Item V)) :
    List (GoString × Int) → AList (fun _ : GoString => Item V)
  | [] => items
  | (key, now) :: rest =>
    match items.lookup key with
    | some item =>
      if item.Expired now then
        deleteExpiredLoop (items.erase key) rest
      else
        deleteExpiredLoop items rest
    | none => deleteExpiredLoop items rest

/-- The method `deleteExpired`, run by `autoRecycling` on every tick. -/
def cache.deleteExpired {V : Type} (c : cache V) (visits : List (GoString × Int)) : cache V :=
  { c with items := deleteExpiredLoop c.items visits }

/-- An iteration of the sweep removes the key `k`: some visit of `k` reads the clock at
a time at which the entry of `k` has expired. -/
def Swept {V : Type} (items : AList (fun _ : GoString => Item V))
    (visits : List (GoString × Int)) (k : GoString) : Prop :=
  ∃ p ∈ visits, p.1 = k ∧ ∃ i : Item V, items.lookup k = some i ∧ i.Expired p.2 = true

/-! ## Sequences of calls -/

/-- The arguments of one call of `Set`, with the clock reading of that call. -/
structure SetArgs (V : Type) where
  now : Int
  key : GoString
  val : Option V
  expire : Int

/-- One call of `Set` after the other, as in the tests. -/
def cache.SetAll {V : Type} (c : cache V) : List (SetArgs V) → cache V
  | [] => c
  | a :: rest => (c.Set a.now a.key a.val a.expire).SetAll rest

/-- A call of one of the methods `Set`, `Get`, `Del`, `Exists`, `Flush`, `Keys`, with
its arguments and, where the method reads the clock, the clock reading. -/
inductive Call (V : Type) where
  | Set (now : Int) (key : GoString) (val : Option V) (expire : Int)
  | Get (now : Int) (key : GoString)
  | Del (key : GoString)
  | Exists (key : GoString)
  | Flush
  | Keys

/-- What a call returns. -/
inductive Reply (V : Type) where
  | nothing
  | value (r : Option V × Bool)
  | flag (b : Bool)
  | count (n : Int)
deriving DecidableEq

/-- One call on the store: what it returns and the state it leaves. -/
def cache.call {V : Type} (c : cache V) : Call V → Reply V × cache V
  | Call.Set now key val expire => (Reply.nothing, c.Set now key val expire)
  | Call.Get now key => (Reply.value (c.Get now key).1, (c.Get now key).2)
  | Call.Del key => (Reply.flag (c.Del key).1, (c.Del key).2)
  | Call.Exists key => (Reply.flag (c.Exists key), c)
  | Call.Flush => (Reply.flag c.Flush.1, c.Flush.2)
  | Call.Keys => (Reply.count c.Keys, c)

/-- A sequence of calls, one after the other: the replies and the final state. -/
def cache.run {V : Type} (c : cache V) : List (Call V) → List (Reply V) × cache V
  | [] => ([], c)
  | op :: rest =>
    let r := c.call op
    let rs := r.2.run rest
    (r.1 :: rs.1, rs.2)

/-! ## Locking -/

/-- What a method does to the mutex `mu` and to the map `items`, step by step. -/
inductive Step where
  | Lock
  | Unlock
  | RLock
  | RUnlock
  | readItems
  | writeItems
deriving DecidableEq

/-- The methods of the store that touch `items`. -/
inductive Method where
  | Set
  | Get
  | Del
  | Exists
  | Flush
  | Keys
  | deleteExpired
deriving DecidableEq

/-- The steps of a method in program order, on its longest path (the other paths of
`Get`, `Del` and `deleteExpired` skip the write).  `Set` starts with the read
`len(c.items)` of `isOutOfMemeory`, which it calls before `c.mu.Lock()`. -/
def Method.steps : Method → List Step
  | Method.Set => [Step.readItems, Step.Lock, Step.writeItems, Step.Unlock]
  | Method.Get => [Step.Lock, Step.readItems, Step.writeItems, Step.Unlock]
  | Method.Del => [Step.Lock, Step.readItems, Step.writeItems, Step.Unlock]
  | Method.Exists => [Step.RLock, Step.readItems, Step.RUnlock]
  | Method.Flush => [Step.Lock, Step.writeItems, Step.Unlock]
  | Method.Keys => [Step.RLock, Step.readItems, Step.RUnlock]
  | Method.deleteExpired => [Step.Lock, Step.readItems, Step.writeItems, Step.Unlock]

/-- How the running method holds the mutex. -/
inductive Held where
  | not
  | shared
  | exclusive
deriving DecidableEq

/-- The accesses to `items` in a sequence of steps that are not covered by the mutex:
a read while the mutex is not held, a write while it is not held exclusively. -/
def unguardedFrom : Held → List Step → List Step
  | _, [] => []
  | _, Step.Lock :: rest => unguardedFrom Held.exclusive rest
  | _, Step.RLock :: rest => unguardedFrom Held.shared rest
  | _, Step.Unlock :: rest => unguardedFrom Held.not rest
  | _, Step.RUnlock :: rest => unguardedFrom Held.not rest
  | h, Step.readItems :: rest =>
    if h = Held.not then Step.readItems :: unguardedFrom h rest else unguardedFrom h rest
  | h, Step.writeItems :: rest =>
    if h = Held.exclusive then unguardedFrom h rest else Step.writeItems :: unguardedFrom h rest

/-- The accesses of a method to `items` that the mutex does not cover. -/
def Method.unguarded (m : Method) : List Step :=
  unguardedFrom Held.not m.steps

/-- Two methods run by two goroutines have a data race on `items` when one makes an
access the mutex does not cover and the other writes, or the other way round: the
two accesses are then not ordered by the mutex. -/
def dataRace (m1 m2 : Method) : Bool :=
  (decide (m1.unguarded ≠ []) && decide (Step.writeItems ∈ m2.steps))
    || (decide (m2.unguarded ≠ []) && decide (Step.writeItems ∈ m1.steps))

/-! ## Basic facts -/

theorem isOutOfMemeory_eq_false {V : Type} (c : cache V) : c.isOutOfMemeory = false := by
  simp [cache.isOutOfMemeory]

theorem Set_items {V : Type} (c : cache V) (now : Int) (key : GoString) (val : Option V)
    (expire : Int) :
    (c.Set now key val expire).items
      = c.items.insert key { Val := val, Expire := Unix (Add now expire) } := by
  simp [cache.Set, isOutOfMemeory_eq_false]

theorem Set_maxMemory {V : Type} (c : cache V) (now : Int) (key : GoString) (val : Option V)
    (expire : Int) : (c.Set now key val expire).maxMemory = c.maxMemory := by
  simp [cache.Set, isOutOfMemeory_eq_false]

theorem Unix_mono {a b : Int} (h : a ≤ b) : Unix a ≤ Unix b :=
  Int.ediv_le_ediv (by decide) h

theorem Unix_add_Second (a : Int) : Unix (a + Second) = Unix a + 1 := by
  unfold Unix
  exact Int.add_ediv_of_dvd_right (dvd_refl _) |>.trans (by simp [Second])

/-- The value `Get` returns on a key just written, in terms of the Unix seconds. -/
theorem Get_Set_same {V : Type} (c : cache V) (k : GoString) (v : Option V) (t t0 t1 : Int) :
    (c.Set t0 k v t).Get t1 k
      = if Unix (t0 + t) < Unix t1 then
          ((none, false), { c.Set t0 k v t with items := (c.Set t0 k v t).items.erase k })
        else ((v, true), c.Set t0 k v t) := by
  unfold cache.Get
  rw [Set_items, AList.lookup_insert]
  simp only [Item.Expired, Add]
  by_cases h : Unix (t0 + t) < Unix t1 <;> simp [h]

/-! ## Facts about the library models -/

theorem le_decimalFrom (ds : GoString) : ∀ n : Nat, n ≤ decimalFrom n ds := by
  induction ds with
  | nil => intro n; exact Nat.le_refl n
  | cons d ds ih =>
    intro n
    have h := ih (10 * n + (d - 48))
    have e : decimalFrom n (d :: ds) = decimalFrom (10 * n + (d - 48)) ds := rfl
    rw [e]
    omega

theorem decimalFrom_cons (n d : Nat) (ds : GoString) :
    decimalFrom n (d :: ds) = decimalFrom (10 * n + (d - 48)) ds := rfl

theorem allDigits_cons (d : Nat) (ds : GoString) :
    allDigits (d :: ds) = (decide (48 ≤ d ∧ d ≤ 57) && allDigits ds) := rfl

/-- The digit loop returns the decimal value when every byte is a digit and the value
fits in a `uint64`, and an error otherwise; a range error comes with the largest
`uint64`. -/
theorem parseUintLoop_spec (ds : GoString) : ∀ n : Nat, n < 2 ^ 64 →
    (allDigits ds = true ∧ decimalFrom n ds < 2 ^ 64 →
        parseUintLoop n ds = (decimalFrom n ds, none)) ∧
      (¬ (allDigits ds = true ∧ decimalFrom n ds < 2 ^ 64) →
        (parseUintLoop n ds).2 = some NumError.ErrSyntax ∨
          parseUintLoop n ds = (maxUint64, some NumError.ErrRange)) := by
  induction ds with
  | nil =>
    intro n hn
    refine ⟨fun _ => rfl, fun h => ?_⟩
    exact absurd ⟨rfl, hn⟩ h
  | cons c cs ih =>
    intro n hn
    rw [decimalFrom_cons, allDigits_cons]
    have hge := le_decimalFrom cs (10 * n + (c - 48))
    by_cases hd : 48 ≤ c ∧ c ≤ 57
    · have hd10 : ¬ (c - 48 ≥ 10) := by omega
      by_cases hcut : n ≥ maxUint64 / 10 + 1
      · have hres : parseUintLoop n (c :: cs) = (maxUint64, some NumError.ErrRange) := by
          simp only [parseUintLoop, hd, hd10, hcut, and_self, if_true, if_false]
        rw [hres]
        refine ⟨fun h => ?_, fun _ => Or.inr rfl⟩
        have h2 := h.2
        simp only [maxUint64] at hcut
        omega
      · by_cases hov : n * 10 + (c - 48) < 2 ^ 64
        · have hmod : (n * 10 + (c - 48)) % 2 ^ 64 = n * 10 + (c - 48) := Nat.mod_eq_of_lt hov
          have hres : parseUintLoop n (c :: cs) = parseUintLoop (n * 10 + (c - 48)) cs := by
            have h1 : ¬ (n * 10 + (c - 48) < n * 10 ∨ n * 10 + (c - 48) > maxUint64) := by
              simp only [maxUint64]; omega
            simp only [parseUintLoop, hd, hd10, hcut, hmod, h1, and_self, if_true, if_false]
          have e : 10 * n + (c - 48) = n * 10 + (c - 48) := by omega
          rw [hres, e]
          simpa [hd] using ih (n * 10 + (c - 48)) hov
        · have hres : parseUintLoop n (c :: cs) = (maxUint64, some NumError.ErrRange) := by
            have h1 : (n * 10 + (c - 48)) % 2 ^ 64 < n * 10 ∨
                (n * 10 + (c - 48)) % 2 ^ 64 > maxUint64 := by
              left
              simp only [maxUint64] at hcut
              omega
            simp only [parseUintLoop, hd, hd10, hcut, h1, and_self, if_true, if_false]
          rw [hres]
          refine ⟨fun h => ?_, fun _ => Or.inr rfl⟩
          have h2 := h.2
          omega
    · have hres : (parseUintLoop n (c :: cs)).2 = some NumError.ErrSyntax := by
        simp only [parseUintLoop, hd, if_false]
        split <;> simp
      refine ⟨fun h => ?_, fun _ => Or.inl hres⟩
      simp [hd] at h

theorem ParseUint_spec (ds : GoString) :
    (ds ≠ [] ∧ allDigits ds = true ∧ decimalFrom 0 ds < 2 ^ 64 →
        ParseUint ds = (decimalFrom 0 ds, none)) ∧
      (¬ (ds ≠ [] ∧ allDigits ds = true ∧ decimalFrom 0 ds < 2 ^ 64) →
        (ParseUint ds).2 = some NumError.ErrSyntax ∨
          ParseUint ds = (maxUint64, some NumError.ErrRange)) := by
  unfold ParseUint
  by_cases hnil : ds = []
  · simp [hnil]
  · have h := parseUintLoop_spec ds 0 (by decide)
    simp only [hnil, if_false, ne_eq, not_false_eq_true, true_and]
    exact h

/-- What `ParseInt` does after the sign is read: `neg` tells whether the sign was `-`
and `ds` is the rest of the string. -/
theorem ParseInt_after_sign (neg : Bool) (ds : GoString) (bound : Nat)
    (hb : bound = if neg then 2 ^ 63 else 2 ^ 63 - 1) :
    let r := ParseUint ds
    let out : Int × Option NumError :=
      if r.2 = some NumError.ErrSyntax then (0, r.2)
      else if neg = false ∧ r.1 ≥ 2 ^ 63 then (((2 ^ 63 : Nat) : Int) - 1, some NumError.ErrRange)
      else if neg = true ∧ r.1 > 2 ^ 63 then (-((2 ^ 63 : Nat) : Int), some NumError.ErrRange)
      else if neg then (wrapInt64 (-(wrapInt64 r.1)), none) else (wrapInt64 r.1, none)
    ((ds ≠ [] ∧ allDigits ds = true ∧ decimalFrom 0 ds ≤ bound) →
        out = ((if neg then -(decimalFrom 0 ds : Int) else (decimalFrom 0 ds : Int)), none)) ∧
      (¬ (ds ≠ [] ∧ allDigits ds = true ∧ decimalFrom 0 ds ≤ bound) → out.2 ≠ none) := by
  intro r out
  have hspec := ParseUint_spec ds
  by_cases hgood : ds ≠ [] ∧ allDigits ds = true ∧ decimalFrom 0 ds < 2 ^ 64
  · have hr : r = (decimalFrom 0 ds, none) := hspec.1 hgood
    have hv := hgood.2.2
    cases neg with
    | false =>
      simp only [Bool.false_eq_true, if_false] at hb
      by_cases hle : decimalFrom 0 ds ≤ bound
      · refine ⟨fun _ => ?_, fun h => absurd ⟨hgood.1, hgood.2.1, hle⟩ h⟩
        have h1 : decimalFrom 0 ds < 9223372036854775808 := by omega
        have h2 : wrapInt64 (decimalFrom 0 ds : Int) = (decimalFrom 0 ds : Int) := by
          unfold wrapInt64; omega
        simp [out, hr, h1, h2]
      · refine ⟨fun h => absurd h.2.2 hle, fun _ => ?_⟩
        have h1 : 9223372036854775808 ≤ decimalFrom 0 ds := by omega
        simp [out, hr, h1]
    | true =>
      simp only [if_true] at hb
      by_cases hle : decimalFrom 0 ds ≤ bound
      · refine ⟨fun _ => ?_, fun h => absurd ⟨hgood.1, hgood.2.1, hle⟩ h⟩
        have h1 : decimalFrom 0 ds ≤ 9223372036854775808 := by omega
        have h2 : wrapInt64 (-(wrapInt64 (decimalFrom 0 ds : Int)))
            = -(decimalFrom 0 ds : Int) := by
          unfold wrapInt64; omega
        simp [out, hr, h1, h2]
      · refine ⟨fun h => absurd h.2.2 hle, fun _ => ?_⟩
        have h1 : 9223372036854775808 < decimalFrom 0 ds := by omega
        simp [out, hr, h1]
  · have hbad : ¬ (ds ≠ [] ∧ allDigits ds = true ∧ decimalFrom 0 ds ≤ bound) := by
      intro h
      apply hgood
      refine ⟨h.1, h.2.1, ?_⟩
      have := h.2.2
      cases neg <;> simp at hb <;> omega
    refine ⟨fun h => absurd h hbad, fun _ => ?_⟩
    rcases hspec.2 hgood with h | h
    · simp [out, r, h]
    · have h1 : r.1 = maxUint64 := by simp [r, h]
      have h2 : r.2 = some NumError.ErrRange := by simp [r, h]
      cases neg <;> simp [out, h1, h2, maxUint64]

theorem isInt64Literal_other (s0 : Nat) (rest : GoString) (h45 : s0 ≠ 45) (h43 : s0 ≠ 43) :
    isInt64Literal (s0 :: rest)
      = (decide (s0 :: rest ≠ []) && allDigits (s0 :: rest)
          && decide (decimalFrom 0 (s0 :: rest) ≤ 2 ^ 63 - 1)) := by
  unfold isInt64Literal
  split
  · rename_i ds heq
    exact absurd (List.cons.inj heq).1 h45
  · rename_i ds heq
    exact absurd (List.cons.inj heq).1 h43
  · rfl

theorem int64LiteralValue_other (s0 : Nat) (rest : GoString) (h45 : s0 ≠ 45) (h43 : s0 ≠ 43) :
    int64LiteralValue (s0 :: rest) = (decimalFrom 0 (s0 :: rest) : Int) := by
  unfold int64LiteralValue
  split
  · rename_i ds heq
    exact absurd (List.cons.inj heq).1 h45
  · rename_i ds heq
    exact absurd (List.cons.inj heq).1 h43
  · rfl

/-- `ParseInt` succeeds exactly on the decimal literals of the `int64` range, and then
returns the integer the literal denotes. -/
theorem ParseInt_spec (s : GoString) :
    (isInt64Literal s = true → ParseInt s = (int64LiteralValue s, none)) ∧
      (isInt64Literal s = false → (ParseInt s).2 ≠ none) := by
  cases s with
  | nil => exact ⟨fun h => by simp [isInt64Literal] at h, fun _ => by simp [ParseInt]⟩
  | cons s0 rest =>
    by_cases h45 : s0 = 45
    · subst h45
      have h : ((rest ≠ [] ∧ allDigits rest = true ∧ decimalFrom 0 rest ≤ 2 ^ 63) →
            ParseInt (45 :: rest) = (-(decimalFrom 0 rest : Int), none)) ∧
          (¬ (rest ≠ [] ∧ allDigits rest = true ∧ decimalFrom 0 rest ≤ 2 ^ 63) →
            (ParseInt (45 :: rest)).2 ≠ none) :=
        ParseInt_after_sign true rest (2 ^ 63) rfl
      have hI : isInt64Literal (45 :: rest) = true ↔
          (rest ≠ [] ∧ allDigits rest = true ∧ decimalFrom 0 rest ≤ 2 ^ 63) := by
        simp [isInt64Literal, and_assoc]
      refine ⟨fun hl => h.1 (hI.mp hl), fun hl => h.2 (fun hc => ?_)⟩
      rw [hI.mpr hc] at hl
      exact Bool.noConfusion hl
    · by_cases h43 : s0 = 43
      · subst h43
        have h : ((rest ≠ [] ∧ allDigits rest = true ∧ decimalFrom 0 rest ≤ 2 ^ 63 - 1) →
              ParseInt (43 :: rest) = ((decimalFrom 0 rest : Int), none)) ∧
            (¬ (rest ≠ [] ∧ allDigits rest = true ∧ decimalFrom 0 rest ≤ 2 ^ 63 - 1) →
              (ParseInt (43 :: rest)).2 ≠ none) :=
          ParseInt_after_sign false rest (2 ^ 63 - 1) rfl
        have hI : isInt64Literal (43 :: rest) = true ↔
            (rest ≠ [] ∧ allDigits rest = true ∧ decimalFrom 0 rest ≤ 2 ^ 63 - 1) := by
          simp [isInt64Literal, and_assoc]
        refine ⟨fun hl => h.1 (hI.mp hl), fun hl => h.2 (fun hc => ?_)⟩
        rw [hI.mpr hc] at hl
        exact Bool.noConfusion hl
      · have hP : ParseInt (s0 :: rest)
            = (let r := ParseUint (s0 :: rest)
               if r.2 = some NumError.ErrSyntax then (0, r.2)
               else if false = false ∧ r.1 ≥ 2 ^ 63 then
                 (((2 ^ 63 : Nat) : Int) - 1, some NumError.ErrRange)
               else if false = true ∧ r.1 > 2 ^ 63 then
                 (-((2 ^ 63 : Nat) : Int), some NumError.ErrRange)
               else if false then (wrapInt64 (-(wrapInt64 r.1)), none)
               else (wrapInt64 r.1, none)) := by
          simp only [ParseInt, h45, h43, if_false, decide_False]
        have h : ((s0 :: rest ≠ [] ∧ allDigits (s0 :: rest) = true ∧
                decimalFrom 0 (s0 :: rest) ≤ 2 ^ 63 - 1) →
              ParseInt (s0 :: rest) = ((decimalFrom 0 (s0 :: rest) : Int), none)) ∧
            (¬ (s0 :: rest ≠ [] ∧ allDigits (s0 :: rest) = true ∧
                decimalFrom 0 (s0 :: rest) ≤ 2 ^ 63 - 1) →
              (ParseInt (s0 :: rest)).2 ≠ none) := by
          rw [hP]
          exact ParseInt_after_sign false (s0 :: rest) (2 ^ 63 - 1) rfl
        have hI : isInt64Literal (s0 :: rest) = true ↔
            (s0 :: rest ≠ [] ∧ allDigits (s0 :: rest) = true ∧
              decimalFrom 0 (s0 :: rest) ≤ 2 ^ 63 - 1) := by
          rw [isInt64Literal_other s0 rest h45 h43]
          simp [and_assoc]
        rw [int64LiteralValue_other s0 rest h45 h43]
        refine ⟨fun hl => h.1 (hI.mp hl), fun hl => h.2 (fun hc => ?_)⟩
        rw [hI.mpr hc] at hl
        exact Bool.noConfusion hl

theorem AppendRune_cases (q : Nat) :
    (q < 128 ∧ AppendRune q = [q]) ∨ (∃ h t, AppendRune q = h :: t ∧ 192 ≤ h) := by
  unfold AppendRune
  by_cases h1 : q < 128
  · exact Or.inl ⟨h1, by simp [h1]⟩
  · right
    simp only [h1, if_false]
    split
    · exact ⟨_, _, rfl, by omega⟩
    · split
      · exact ⟨_, _, rfl, by omega⟩
      · split
        · exact ⟨_, _, rfl, by omega⟩
        · exact ⟨_, _, rfl, by omega⟩

theorem AppendRune_RuneError : AppendRune RuneError = [239, 191, 189] := by decide

theorem DecodeRuneInString_single (b : Nat) (hb : 128 ≤ b) :
    DecodeRuneInString [b] = (RuneError, 1) := by
  have h1 : ¬ b < 128 := by omega
  by_cases hx : b < 194 ∨ 245 ≤ b
  · simp [DecodeRuneInString, h1, hx]
  · by_cases h2 : b < 224
    · simp [DecodeRuneInString, h1, hx, h2]
    · by_cases h3 : b < 240
      · simp [DecodeRuneInString, h1, hx, h2, h3]
      · simp [DecodeRuneInString, h1, hx, h2, h3]

theorem DecodeRuneInString_pair (a b : Nat) (ha : 128 ≤ a) :
    DecodeRuneInString [a, b] = (RuneError, 1) ∨ ∃ r, DecodeRuneInString [a, b] = (r, 2) := by
  have h1 : ¬ a < 128 := by omega
  by_cases hx : a < 194 ∨ 245 ≤ a
  · left
    simp [DecodeRuneInString, h1, hx]
  · by_cases h2 : a < 224
    · by_cases hr : (b < if a = 224 then 160 else if a = 240 then 144 else 128) ∨
          (if a = 237 then 159 else if a = 244 then 143 else 191) < b
      · left
        simp [DecodeRuneInString, h1, hx, h2, hr]
      · right
        exact ⟨a % 32 * 64 + b % 64, by simp [DecodeRuneInString, h1, hx, h2, hr]⟩
    · left
      by_cases h3 : a < 240
      · simp [DecodeRuneInString, h1, hx, h2, h3]
      · simp [DecodeRuneInString, h1, hx, h2, h3]

theorem unicodeToUpper_RuneError (upperCase : Nat → Nat)
    (hErr : upperCase RuneError = RuneError) :
    unicodeToUpper upperCase RuneError = RuneError := by
  unfold unicodeToUpper
  rw [if_neg (by decide), hErr]

/-- On two bytes that are not both ASCII, `strings.Map(unicode.ToUpper, ·)` never
yields two bytes of which the first is ASCII. -/
theorem mapToUpper_pair_ne (upperCase : Nat → Nat) (hErr : upperCase RuneError = RuneError)
    (a b x y : Nat) (hab : ¬ (a < 128 ∧ b < 128)) (hx : x < 128) :
    mapToUpper upperCase 2 [a, b] ≠ [x, y] := by
  have hE := unicodeToUpper_RuneError upperCase hErr
  by_cases ha : a < 128
  · have hb : 128 ≤ b := by omega
    have hd : DecodeRuneInString [a, b] = (a, 1) := by
      simp [DecodeRuneInString, ha]
    have hlen : (mapToUpper upperCase 2 [a, b]).length = 4 := by
      have hu : unicodeToUpper upperCase a < 128 := by
        unfold unicodeToUpper
        split
        · split <;> omega
        · omega
      have hA : AppendRune (unicodeToUpper upperCase a) = [unicodeToUpper upperCase a] := by
        simp [AppendRune, hu]
      simp [mapToUpper, hd, DecodeRuneInString_single b hb, hE, AppendRune_RuneError, hA]
    intro h
    rw [h] at hlen
    simp at hlen
  · have ha2 : 128 ≤ a := by omega
    rcases DecodeRuneInString_pair a b ha2 with hd | ⟨r, hd⟩
    · intro h
      have : (mapToUpper upperCase 2 [a, b]).head? = some 239 := by
        simp [mapToUpper, hd, hE, AppendRune_RuneError]
      rw [h] at this
      simp at this
      omega
    · have hm : mapToUpper upperCase 2 [a, b] = AppendRune (unicodeToUpper upperCase r) := by
        simp [mapToUpper, hd]
      rw [hm]
      rcases AppendRune_cases (unicodeToUpper upperCase r) with ⟨_, h1⟩ | ⟨h, t, h1, h2⟩
      · rw [h1]; simp
      · rw [h1]
        intro hc
        have := (List.cons.inj hc).1
        omega

theorem ToUpper_pair_ascii (upperCase : Nat → Nat) (a b : Nat) (ha : a < 128) (hb : b < 128) :
    ToUpper upperCase [a, b]
      = [if 97 ≤ a ∧ a ≤ 122 then a - 32 else a, if 97 ≤ b ∧ b ≤ 122 then b - 32 else b] := by
  by_cases la : 97 ≤ a ∧ a ≤ 122 <;> by_cases lb : 97 ≤ b ∧ b ≤ 122 <;>
    simp [ToUpper, ha, hb, la, lb]

theorem ToUpper_pair_nonascii (upperCase : Nat → Nat) (a b : Nat) (hab : ¬ (a < 128 ∧ b < 128)) :
    ToUpper upperCase [a, b] = mapToUpper upperCase 2 [a, b] := by
  have h : ([a, b] : GoString).all (fun c => decide (c < 128)) = false := by
    simp only [List.all_cons, List.all_nil, Bool.and_true]
    by_cases ha : a < 128
    · have hb : ¬ b < 128 := fun hb => hab ⟨ha, hb⟩
      simp [ha, hb]
    · simp [ha]
  simp only [ToUpper, h]
  rfl

theorem ascii_KB : ascii "KB" = [75, 66] := by decide

theorem ascii_MB : ascii "MB" = [77, 66] := by decide

theorem ascii_GB : ascii "GB" = [71, 66] := by decide

/-- A unit with a multiplier is upper-cased to `KB`, `MB` or `GB`, matching the
multiplier. -/
theorem ToUpper_of_unitFactor (upperCase : Nat → Nat) (u : GoString) (m : Int)
    (h : unitFactor u = some m) :
    (m = 1024 ∧ ToUpper upperCase u = ascii "KB") ∨
      (m = 1024 * 1024 ∧ ToUpper upperCase u = ascii "MB") ∨
      (m = 1024 * 1024 * 1024 ∧ ToUpper upperCase u = ascii "GB") := by
  match u, h with
  | [a, b], h =>
    simp only [unitFactor] at h
    have ha : a < 128 := by
      by_contra hc
      have h1 : ¬ (a = 75 ∨ a = 107) := by omega
      have h2 : ¬ (a = 77 ∨ a = 109) := by omega
      have h3 : ¬ (a = 71 ∨ a = 103) := by omega
      simp [h1, h2, h3] at h
    have hb : b = 66 ∨ b = 98 := by
      by_contra hc
      simp [hc] at h
    have hb2 : b < 128 := by omega
    have hB : (if 97 ≤ b ∧ b ≤ 122 then b - 32 else b) = 66 := by
      rcases hb with hb | hb <;> subst hb <;> decide
    rw [ToUpper_pair_ascii upperCase a b ha hb2, hB, ascii_KB, ascii_MB, ascii_GB]
    simp only [hb, if_true] at h
    by_cases h1 : a = 75 ∨ a = 107
    · left
      simp only [h1, if_true, Option.some.injEq] at h
      refine ⟨h.symm, ?_⟩
      rcases h1 with h1 | h1 <;> subst h1 <;> decide
    · by_cases h2 : a = 77 ∨ a = 109
      · right; left
        simp only [h1, h2, if_true, if_false, Option.some.injEq] at h
        refine ⟨h.symm, ?_⟩
        rcases h2 with h2 | h2 <;> subst h2 <;> decide
      · by_cases h3 : a = 71 ∨ a = 103
        · right; right
          simp only [h1, h2, h3, if_true, if_false, Option.some.injEq] at h
          refine ⟨h.symm, ?_⟩
          rcases h3 with h3 | h3 <;> subst h3 <;> decide
        · simp [h1, h2, h3] at h

/-- A two-byte string that is upper-cased to `KB`, `MB` or `GB` is one of these units
written in some letter case. -/
theorem unitFactor_of_ToUpper (upperCase : Nat → Nat) (hErr : upperCase RuneError = RuneError)
    (u : GoString) (hu : u.length = 2)
    (h : ToUpper upperCase u = ascii "KB" ∨ ToUpper upperCase u = ascii "MB" ∨
      ToUpper upperCase u = ascii "GB") :
    (unitFactor u).isSome = true := by
  match u, hu with
  | [a, b], _ =>
    rw [ascii_KB, ascii_MB, ascii_GB] at h
    by_cases hab : a < 128 ∧ b < 128
    · rw [ToUpper_pair_ascii upperCase a b hab.1 hab.2] at h
      have hb : b = 66 ∨ b = 98 := by
        rcases h with h | h | h <;>
          · have := (List.cons.inj (List.cons.inj h).2).1
            split at this <;> omega
      have ha : (a = 75 ∨ a = 107) ∨ (a = 77 ∨ a = 109) ∨ (a = 71 ∨ a = 103) := by
        rcases h with h | h | h <;>
          · have := (List.cons.inj h).1
            split at this <;> omega
      simp only [unitFactor, hb, if_true]
      rcases ha with ha | ha | ha
      · simp [ha]
      · by_cases h1 : a = 75 ∨ a = 107 <;> simp [h1, ha]
      · by_cases h1 : a = 75 ∨ a = 107 <;> by_cases h2 : a = 77 ∨ a = 109 <;> simp [h1, h2, ha]
    · rw [ToUpper_pair_nonascii upperCase a b hab] at h
      rcases h with h | h | h <;>
        exact absurd h (mapToUpper_pair_ne upperCase hErr a b _ _ hab (by decide))

/-! ## Facts about SetMaxMemory -/

theorem slice_numStr (s : GoString) (h : 2 ≤ s.length) :
    slice s 0 ((s.length : Int) - 2) = .ok (s.take (s.length - 2)) := by
  have h1 : (0 : Int) ≤ 0 ∧ (0 : Int) ≤ (s.length : Int) - 2 ∧
      (s.length : Int) - 2 ≤ (s.length : Int) := by omega
  have h2 : ((s.length : Int) - 2).toNat = s.length - 2 := by omega
  simp [slice, h1, h2]

theorem slice_unitStr (s : GoString) (h : 2 ≤ s.length) :
    slice s ((s.length : Int) - 2) (s.length : Int) = .ok (s.drop (s.length - 2)) := by
  have h1 : (0 : Int) ≤ (s.length : Int) - 2 ∧ (s.length : Int) - 2 ≤ (s.length : Int) ∧
      (s.length : Int) ≤ (s.length : Int) := by omega
  have h2 : ((s.length : Int) - 2).toNat = s.length - 2 := by omega
  have h3 : s.length - (s.length - 2) = 2 := by omega
  have h4 : (s.drop (s.length - 2)).length ≤ 2 := by simp; omega
  simp only [slice, h1, and_self, if_true, h2, Int.toNat_ofNat, h3]
  rw [List.take_of_length_le h4]

/-- On a string of at least two bytes no slice panics, and `SetMaxMemory` is decided by
`ParseInt` on all but the last two bytes and `ToUpper` on the last two. -/
theorem SetMaxMemory_of_two_le {V : Type} (upperCase : Nat → Nat) (c : cache V) (s : GoString)
    (h : 2 ≤ s.length) :
    c.SetMaxMemory upperCase s
      = if (ParseInt (s.take (s.length - 2))).2 ≠ none then .ok (false, c)
        else if ToUpper upperCase (s.drop (s.length - 2)) = ascii "KB" then
          .ok (true, { c with
            maxMemory := wrapInt64 ((ParseInt (s.take (s.length - 2))).1 * KB) })
        else if ToUpper upperCase (s.drop (s.length - 2)) = ascii "MB" then
          .ok (true, { c with
            maxMemory := wrapInt64 ((ParseInt (s.take (s.length - 2))).1 * MB) })
        else if ToUpper upperCase (s.drop (s.length - 2)) = ascii "GB" then
          .ok (true, { c with
            maxMemory := wrapInt64 ((ParseInt (s.take (s.length - 2))).1 * GB) })
        else .ok (false, c) := by
  have hne : s ≠ [] := by
    intro hs
    rw [hs] at h
    simp at h
  unfold cache.SetMaxMemory
  rw [if_neg hne]
  simp only [slice_numStr s h, slice_unitStr s h]

/-! ## Round trip and expiry -/

/-- C1: after `Set(k, v, t)` at clock time `t0` with `t > 0`, a `Get(k)` at a clock
time `t1` with `t0 ≤ t1 ≤ t0 + t` returns `(v, true)` and leaves the store as it is. -/
theorem set_get_roundtrip {V : Type} (c : cache V) (k : GoString) (v : Option V)
    (t t0 t1 : Int) (_ht : 0 < t) (_h0 : t0 ≤ t1) (h1 : t1 ≤ t0 + t) :
    (c.Set t0 k v t).Get t1 k = ((v, true), c.Set t0 k v t) := by
  rw [Get_Set_same, if_neg (not_lt.mpr (Unix_mono h1))]

theorem set_get_roundtrip_witness :
    (0 : Int) < 5 * Second ∧ (0 : Int) ≤ 1 ∧ (1 : Int) ≤ 0 + 5 * Second ∧
      ((NewCache : cache String).Set 0 (ascii "hello") (some "world") (5 * Second)).Get 1
          (ascii "hello")
        = ((some "world", true),
            (NewCache : cache String).Set 0 (ascii "hello") (some "world") (5 * Second)) :=
  ⟨by decide, by decide, by decide,
    set_get_roundtrip NewCache (ascii "hello") (some "world") (5 * Second) 0 1
      (by decide) (by decide) (by decide)⟩

/-- C2, refuted as stated: the entry set at clock time 0 with a ttl of 1.5 seconds
is still returned at 1.9 seconds, which is strictly after its expiry instant,
because both sides of the comparison are whole Unix seconds. -/
theorem lazy_expiration_counterexample :
    (0 : Int) + 1500000000 < 1900000000 ∧
      (((NewCache : cache String).Set 0 (ascii "hello") (some "world") 1500000000).Get
          1900000000 (ascii "hello")).1 = (some "world", true) := by
  refine ⟨by decide, ?_⟩
  rw [Get_Set_same, if_neg (by decide)]

/-- C2, amended: after `Set(k, v, t)` at clock time `t0`, a `Get(k)` at a clock time
`t1` whose Unix second is strictly after the Unix second of `t0 + t` returns
not-found `(nil, false)`, and `k` is no longer in the map afterwards. -/
theorem lazy_expiration {V : Type} (c : cache V) (k : GoString) (v : Option V)
    (t t0 t1 : Int) (h : Unix (t0 + t) < Unix t1) :
    ((c.Set t0 k v t).Get t1 k).1 = (none, false) ∧
      k ∉ ((c.Set t0 k v t).Get t1 k).2.items := by
  rw [Get_Set_same, if_pos h]
  exact ⟨rfl, fun hk => ((AList.mem_erase).mp hk).1 rfl⟩

theorem lazy_expiration_witness :
    Unix (0 + 2 * Second) < Unix (3 * Second) ∧
      (((NewCache : cache String).Set 0 (ascii "hello") (some "world") (2 * Second)).Get
          (3 * Second) (ascii "hello")).1 = (none, false) ∧
      ascii "hello" ∉
        (((NewCache : cache String).Set 0 (ascii "hello") (some "world") (2 * Second)).Get
          (3 * Second) (ascii "hello")).2.items :=
  ⟨by decide,
    lazy_expiration NewCache (ascii "hello") (some "world") (2 * Second) 0 (3 * Second)
      (by decide)⟩

/-- C3: for a ttl `t ≥ 0` and clock times with `t1 ≥ t0 + t + 1 second`, a `Get(k)` at
`t1` that follows `Set(k, v, t)` at `t0` returns found = false: an entry never
outlives its ttl by a full second. -/
theorem expire_after_ttl_plus_second {V : Type} (c : cache V) (k : GoString) (v : Option V)
    (t t0 t1 : Int) (_ht : 0 ≤ t) (h : t0 + t + Second ≤ t1) :
    ((c.Set t0 k v t).Get t1 k).1.2 = false := by
  have h1 : Unix (t0 + t) < Unix t1 := by
    have := Unix_mono h
    rw [Unix_add_Second] at this
    omega
  rw [Get_Set_same, if_pos h1]

theorem expire_after_ttl_plus_second_witness :
    (0 : Int) ≤ 2 * Second ∧ (0 : Int) + 2 * Second + Second ≤ 3 * Second ∧
      (((NewCache : cache String).Set 0 (ascii "hello") (some "world") (2 * Second)).Get
          (3 * Second) (ascii "hello")).1.2 = false :=
  ⟨by decide, by decide,
    expire_after_ttl_plus_second NewCache (ascii "hello") (some "world") (2 * Second) 0
      (3 * Second) (by decide) (by decide)⟩

/-! ## SetMaxMemory: acceptance, panic, ceiling, failure -/

theorem unitFactor_length (u : GoString) (m : Int) (h : unitFactor u = some m) :
    u.length = 2 := by
  match u, h with
  | [_, _], _ => rfl

/-- C4, refuted as stated: `"0KB"` and `"-1KB"` are accepted although their number is
not a positive integer. -/
theorem setMaxMemory_accepts_counterexample :
    ((NewCache : cache String).SetMaxMemory id (ascii "0KB")).map Prod.fst = .ok true ∧
      ((NewCache : cache String).SetMaxMemory id (ascii "-1KB")).map Prod.fst = .ok true := by
  decide

/-- C4, amended: for every string `s` whose length is not 1, `SetMaxMemory(s)` returns
true if and only if `s` is a decimal integer as `strconv.ParseInt` reads it (an
optional sign `+` or `-`, then one or more decimal digits, with a value in the `int64`
range) immediately followed by a two-character unit `KB`, `MB` or `GB` in any letter
case; on every other such string it returns false.  The case table is only assumed to
leave U+FFFD in place. -/
theorem setMaxMemory_accepts_iff {V : Type} (upperCase : Nat → Nat)
    (hErr : upperCase RuneError = RuneError) (c : cache V) (s : GoString)
    (hlen : s.length ≠ 1) :
    ∃ c2 : cache V, c.SetMaxMemory upperCase s = .ok (isSizeSpec s, c2) := by
  by_cases hnil : s = []
  · subst hnil
    exact ⟨c, rfl⟩
  · have h2 : 2 ≤ s.length := by
      have : s.length ≠ 0 := fun h0 => hnil (List.length_eq_zero.mp h0)
      omega
    rw [SetMaxMemory_of_two_le upperCase c s h2]
    have hS : isSizeSpec s = (isInt64Literal (s.take (s.length - 2))
        && (unitFactor (s.drop (s.length - 2))).isSome) := by
      simp [isSizeSpec, h2]
    rw [hS]
    have hP := ParseInt_spec (s.take (s.length - 2))
    cases hL : isInt64Literal (s.take (s.length - 2)) with
    | false =>
      rw [if_pos (hP.2 hL)]
      exact ⟨c, rfl⟩
    | true =>
      have hv := hP.1 hL
      have hnone : ¬ ((ParseInt (s.take (s.length - 2))).2 ≠ none) := by simp [hv]
      rw [if_neg hnone]
      cases hU : unitFactor (s.drop (s.length - 2)) with
      | none =>
        have hu : (s.drop (s.length - 2)).length = 2 := by simp; omega
        have hno : ¬ (ToUpper upperCase (s.drop (s.length - 2)) = ascii "KB" ∨
            ToUpper upperCase (s.drop (s.length - 2)) = ascii "MB" ∨
              ToUpper upperCase (s.drop (s.length - 2)) = ascii "GB") := by
          intro h
          have := unitFactor_of_ToUpper upperCase hErr _ hu h
          rw [hU] at this
          exact Bool.noConfusion this
        rw [if_neg (fun h => hno (Or.inl h)), if_neg (fun h => hno (Or.inr (Or.inl h))),
          if_neg (fun h => hno (Or.inr (Or.inr h)))]
        exact ⟨c, rfl⟩
      | some m =>
        rcases ToUpper_of_unitFactor upperCase _ m hU with ⟨_, h⟩ | ⟨_, h⟩ | ⟨_, h⟩
        · rw [if_pos h]
          exact ⟨_, rfl⟩
        · rw [h, if_neg (by decide), if_pos rfl]
          exact ⟨_, rfl⟩
        · rw [h, if_neg (by decide), if_neg (by decide), if_pos rfl]
          exact ⟨_, rfl⟩

theorem setMaxMemory_accepts_iff_witness :
    id RuneError = RuneError ∧ (ascii "100KB").length ≠ 1 ∧
      ∃ c2 : cache String,
        (NewCache : cache String).SetMaxMemory id (ascii "100KB")
          = .ok (isSizeSpec (ascii "100KB"), c2) :=
  ⟨rfl, by decide, setMaxMemory_accepts_iff id rfl NewCache (ascii "100KB") (by decide)⟩

/-- C5, the defect: on every string of exactly one byte, such as `"1"`, the slice
`size[0:length-2]` is out of range and `SetMaxMemory` panics instead of returning a
boolean. -/
theorem setMaxMemory_panics_on_one_byte {V : Type} (upperCase : Nat → Nat) (c : cache V)
    (b : Nat) :
    c.SetMaxMemory upperCase [b] = .error Panic.sliceBoundsOutOfRange ∧
      (NewCache : cache V).SetMaxMemory upperCase (ascii "1")
        = .error Panic.sliceBoundsOutOfRange := by
  constructor <;> rfl

/-- C6, refuted as stated: `ParseInt` accepts `9223372036854775807`, and
`"9223372036854775807KB"` stores `-1024`, not `9223372036854775807 * 1024`. -/
theorem setMaxMemory_ceiling_counterexample :
    ParseInt (ascii "9223372036854775807") = (9223372036854775807, none) ∧
      ((NewCache : cache String).SetMaxMemory id (ascii "9223372036854775807KB")).map
          (fun r => (r.1, r.2.maxMemory)) = .ok (true, -1024) ∧
      (-1024 : Int) ≠ 9223372036854775807 * 1024 := by
  decide

/-- C6, amended: for every string made of a decimal integer `n` that
`strconv.ParseInt` accepts followed by `KB`, `MB` or `GB` in any letter case,
`SetMaxMemory` returns true, changes nothing but `maxMemory`, and stores the product
of `n` and the multiplier 1024, 1024² or 1024³ as an `int64`: exactly the product
whenever it lies in `[-2^63, 2^63)`, and the product wrapped into that range
otherwise. -/
theorem setMaxMemory_ceiling {V : Type} (upperCase : Nat → Nat) (c : cache V)
    (numStr unit : GoString) (n m : Int) (hn : ParseInt numStr = (n, none))
    (hu : unitFactor unit = some m) :
    c.SetMaxMemory upperCase (numStr ++ unit)
        = .ok (true, { c with maxMemory := wrapInt64 (n * m) }) ∧
      (-(2 ^ 63) ≤ n * m → n * m < 2 ^ 63 → wrapInt64 (n * m) = n * m) := by
  have hlu := unitFactor_length unit m hu
  have h2 : 2 ≤ (numStr ++ unit).length := by simp [hlu]
  have hl : (numStr ++ unit).length - 2 = numStr.length := by simp [hlu]
  constructor
  · rw [SetMaxMemory_of_two_le upperCase c _ h2, hl, List.take_left, List.drop_left, hn]
    rw [if_neg (by simp)]
    rcases ToUpper_of_unitFactor upperCase unit m hu with ⟨hm, h⟩ | ⟨hm, h⟩ | ⟨hm, h⟩
    · rw [if_pos h, hm]; rfl
    · rw [h, if_neg (by decide), if_pos rfl, hm]; rfl
    · rw [h, if_neg (by decide), if_neg (by decide), if_pos rfl, hm]; rfl
  · intro h1 h3
    unfold wrapInt64
    omega

theorem setMaxMemory_ceiling_witness :
    ParseInt (ascii "100") = (100, none) ∧ unitFactor (ascii "KB") = some 1024 ∧
      ((NewCache : cache String).SetMaxMemory id (ascii "100" ++ ascii "KB")
          = .ok (true, { (NewCache : cache String) with maxMemory := wrapInt64 (100 * 1024) }) ∧
        (-(2 ^ 63) ≤ (100 : Int) * 1024 → (100 : Int) * 1024 < 2 ^ 63 →
          wrapInt64 (100 * 1024) = 100 * 1024)) :=
  ⟨by decide, by decide,
    setMaxMemory_ceiling id NewCache (ascii "100") (ascii "KB") 100 1024 (by decide) (by decide)⟩

/-- C7: whenever `SetMaxMemory(s)` returns false, `maxMemory` keeps its prior value and
the items map is unchanged. -/
theorem setMaxMemory_failure_atomic {V : Type} (upperCase : Nat → Nat) (c c2 : cache V)
    (s : GoString) (h : c.SetMaxMemory upperCase s = .ok (false, c2)) :
    c2.maxMemory = c.maxMemory ∧ c2.items = c.items := by
  have hc : c2 = c := by
    by_cases hnil : s = []
    · subst hnil
      have e : c.SetMaxMemory upperCase [] = .ok (false, c) := rfl
      rw [e] at h
      exact ((Prod.mk.inj (Except.ok.inj h)).2).symm
    · by_cases h1 : s.length = 1
      · obtain ⟨b, rfl⟩ := List.length_eq_one.mp h1
        have e : c.SetMaxMemory upperCase [b] = .error Panic.sliceBoundsOutOfRange := rfl
        rw [e] at h
        exact Except.noConfusion h
      · have h2 : 2 ≤ s.length := by
          have : s.length ≠ 0 := fun h0 => hnil (List.length_eq_zero.mp h0)
          omega
        rw [SetMaxMemory_of_two_le upperCase c s h2] at h
        split at h
        · exact ((Prod.mk.inj (Except.ok.inj h)).2).symm
        · split at h
          · exact Bool.noConfusion (Prod.mk.inj (Except.ok.inj h)).1
          · split at h
            · exact Bool.noConfusion (Prod.mk.inj (Except.ok.inj h)).1
            · split at h
              · exact Bool.noConfusion (Prod.mk.inj (Except.ok.inj h)).1
              · exact ((Prod.mk.inj (Except.ok.inj h)).2).symm
  rw [hc]
  exact ⟨rfl, rfl⟩

theorem setMaxMemory_failure_atomic_witness :
    (NewCache : cache String).SetMaxMemory id (ascii "10XY") = .ok (false, NewCache) ∧
      (NewCache : cache String).maxMemory = (NewCache : cache String).maxMemory ∧
      (NewCache : cache String).items = (NewCache : cache String).items :=
  ⟨rfl, setMaxMemory_failure_atomic id NewCache NewCache (ascii "10XY") rfl⟩

/-! ## Del, Exists, Flush -/

theorem Exists_iff_mem {V : Type} (c : cache V) (k : GoString) :
    c.Exists k = true ↔ k ∈ c.items := by
  unfold cache.Exists
  cases h : c.items.lookup k with
  | none => simpa using AList.lookup_eq_none.mp h
  | some i =>
    have : k ∈ c.items := AList.lookup_isSome.mp (by simp [h])
    simpa using this

theorem Get_of_not_mem {V : Type} (c : cache V) (now : Int) (k : GoString)
    (h : k ∉ c.items) : c.Get now k = ((none, false), c) := by
  unfold cache.Get
  rw [AList.lookup_eq_none.mpr h]

/-- C8: `Del(k)` returns true exactly when `k` is in the map beforehand and false when
it is absent (no clock is read, so expiry plays no part); afterwards `k` is absent,
`Exists(k)` is false and `Get(k)` returns not-found at every clock time, and the
entry of every other key and `maxMemory` are unchanged. -/
theorem del_spec {V : Type} (c : cache V) (k : GoString) :
    ((c.Del k).1 = true ↔ k ∈ c.items) ∧
      ((c.Del k).1 = false ↔ k ∉ c.items) ∧
      k ∉ (c.Del k).2.items ∧
      (c.Del k).2.Exists k = false ∧
      (∀ now : Int, ((c.Del k).2.Get now k).1 = (none, false)) ∧
      (∀ k2 : GoString, k2 ≠ k → (c.Del k).2.items.lookup k2 = c.items.lookup k2) ∧
      (c.Del k).2.maxMemory = c.maxMemory := by
  have hnot : k ∉ (c.Del k).2.items := by
    unfold cache.Del
    cases h : c.items.lookup k with
    | none => simpa using AList.lookup_eq_none.mp h
    | some i => simp [AList.mem_erase]
  have hret : (c.Del k).1 = true ↔ k ∈ c.items := by
    unfold cache.Del
    cases h : c.items.lookup k with
    | none => simpa using AList.lookup_eq_none.mp h
    | some i =>
      have : k ∈ c.items := AList.lookup_isSome.mp (by simp [h])
      simpa using this
  refine ⟨hret, ?_, hnot, ?_, ?_, ?_, ?_⟩
  · rw [← hret]; simp
  · cases hE : (c.Del k).2.Exists k with
    | false => rfl
    | true => exact absurd ((Exists_iff_mem _ _).mp hE) hnot
  · intro now
    rw [Get_of_not_mem _ _ _ hnot]
  · intro k2 hk
    unfold cache.Del
    cases h : c.items.lookup k with
    | none => rfl
    | some i => exact AList.lookup_erase_ne hk
  · unfold cache.Del
    cases h : c.items.lookup k <;> rfl

theorem del_spec_witness :
    ascii "int" ≠ ascii "hello" ∧
      (((NewCache : cache String).Set 0 (ascii "hello") (some "world") (5 * Second)).Del
          (ascii "hello")).2.items.lookup (ascii "int")
        = ((NewCache : cache String).Set 0 (ascii "hello") (some "world")
            (5 * Second)).items.lookup (ascii "int") :=
  ⟨by decide,
    (del_spec ((NewCache : cache String).Set 0 (ascii "hello") (some "world") (5 * Second))
      (ascii "hello")).2.2.2.2.2.1 (ascii "int") (by decide)⟩

/-- C9: `Exists(k)` is true if and only if `k` is a key of the map, whatever the clock
says; after `Set(k, v, t)` it is true, also at a clock time `t1` at which `Get(k)`
reports not-found; on a fresh store it is false, and writing another key does not
make it true. -/
theorem exists_ignores_expiration {V : Type} (c : cache V) (k : GoString) :
    (c.Exists k = true ↔ k ∈ c.items) ∧
      (∀ (t0 t : Int) (v : Option V), (c.Set t0 k v t).Exists k = true) ∧
      (∀ (t0 t t1 : Int) (v : Option V), Unix (t0 + t) < Unix t1 →
        ((c.Set t0 k v t).Get t1 k).1 = (none, false) ∧ (c.Set t0 k v t).Exists k = true) ∧
      (NewCache : cache V).Exists k = false ∧
      (∀ (t0 t : Int) (v : Option V) (k2 : GoString), k2 ≠ k → c.Exists k = false →
        (c.Set t0 k2 v t).Exists k = false) := by
  have hset : ∀ (t0 t : Int) (v : Option V), (c.Set t0 k v t).Exists k = true := by
    intro t0 t v
    rw [Exists_iff_mem, Set_items, AList.mem_insert]
    exact Or.inl rfl
  refine ⟨Exists_iff_mem c k, hset, ?_, ?_, ?_⟩
  · intro t0 t t1 v h
    refine ⟨?_, hset t0 t v⟩
    rw [Get_Set_same, if_pos h]
  · simp [cache.Exists, NewCache]
  · intro t0 t v k2 hk hE
    have hn : k ∉ c.items := fun hm => by
      rw [(Exists_iff_mem c k).mpr hm] at hE
      exact Bool.noConfusion hE
    cases hE2 : (c.Set t0 k2 v t).Exists k with
    | false => rfl
    | true =>
      have := (Exists_iff_mem _ _).mp hE2
      rw [Set_items, AList.mem_insert] at this
      rcases this with h | h
      · exact absurd h.symm hk
      · exact absurd h hn

theorem exists_ignores_expiration_witness :
    Unix (0 + 2 * Second) < Unix (3 * Second) ∧
      (((NewCache : cache String).Set 0 (ascii "hello") (some "world") (2 * Second)).Get
          (3 * Second) (ascii "hello")).1 = (none, false) ∧
      ((NewCache : cache String).Set 0 (ascii "hello") (some "world") (2 * Second)).Exists
          (ascii "hello") = true :=
  ⟨by decide,
    (exists_ignores_expiration (NewCache : cache String) (ascii "hello")).2.2.1 0 (2 * Second)
      (3 * Second) (some "world") (by decide)⟩

/-- C10: `Flush()` returns true; afterwards `Keys()` is 0, `Exists(k)` is false and
`Get(k)` is not-found for every key `k` at every clock time, and `maxMemory` is
unchanged. -/
theorem flush_empties {V : Type} (c : cache V) :
    (c.Flush).1 = true ∧
      (c.Flush).2.Keys = 0 ∧
      (∀ k : GoString, (c.Flush).2.Exists k = false) ∧
      (∀ (now : Int) (k : GoString), ((c.Flush).2.Get now k).1 = (none, false)) ∧
      (c.Flush).2.maxMemory = c.maxMemory := by
  refine ⟨rfl, ?_, ?_, ?_, rfl⟩
  · simp [cache.Flush, cache.Keys]
  · intro k
    simp [cache.Flush, cache.Exists]
  · intro now k
    simp [cache.Flush, cache.Get]

/-! ## Key count, re-insertion, the footprint of Set -/

theorem Keys_eq_keys_length {V : Type} (c : cache V) :
    c.Keys = (c.items.keys.length : Int) := by
  simp [cache.Keys, AList.keys, List.keys]

theorem length_cons_erase {α : Type} [DecidableEq α] (a : α) (l : List α) :
    (a :: l.erase a).length = if a ∈ l then l.length else l.length + 1 := by
  by_cases h : a ∈ l
  · rw [if_pos h, List.length_cons, List.length_erase_of_mem h]
    have := List.length_pos_of_mem h
    omega
  · rw [if_neg h, List.length_cons, List.erase_of_not_mem h]

/-- The key count after `Set`: one more when the key is new, the same otherwise. -/
theorem Keys_Set {V : Type} (c : cache V) (now : Int) (k : GoString) (v : Option V)
    (t : Int) :
    (c.Set now k v t).Keys = if k ∈ c.items then c.Keys else c.Keys + 1 := by
  rw [Keys_eq_keys_length, Keys_eq_keys_length, Set_items, AList.keys_insert,
    length_cons_erase]
  by_cases h : k ∈ c.items
  · rw [if_pos h, if_pos (AList.mem_keys.mp h)]
  · rw [if_neg h, if_neg (fun hk => h (AList.mem_keys.mpr hk))]
    push_cast
    rfl

theorem SetAll_Keys {V : Type} (l : List (SetArgs V)) : ∀ c : cache V,
    (l.map SetArgs.key).Nodup → (∀ a ∈ l, a.key ∉ c.items) →
      (c.SetAll l).Keys = c.Keys + (l.length : Int) := by
  induction l with
  | nil =>
    intro c _ _
    simp [cache.SetAll]
  | cons a rest ih =>
    intro c hnd hfresh
    rw [List.map_cons, List.nodup_cons] at hnd
    have ha : a.key ∉ c.items := hfresh a (List.mem_cons_self a rest)
    have hrest : ∀ b ∈ rest, b.key ∉ (c.Set a.now a.key a.val a.expire).items := by
      intro b hb hmem
      rw [Set_items, AList.mem_insert] at hmem
      rcases hmem with h | h
      · exact hnd.1 (h ▸ List.mem_map_of_mem SetArgs.key hb)
      · exact hfresh b (List.mem_cons_of_mem a hb) h
    have e : c.SetAll (a :: rest) = (c.Set a.now a.key a.val a.expire).SetAll rest := rfl
    rw [e, ih _ hnd.2 hrest, Keys_Set, if_neg ha, List.length_cons]
    push_cast
    omega

/-- C11: after `Set` is called once for each key of a list of `n` pairwise distinct keys
on a fresh store, with any values, ttls and clock readings, `Keys()` returns `n`; and
on every store `Keys()` is the number of keys in the map, whatever their expiry. -/
theorem keys_counts_distinct_sets {V : Type} (l : List (SetArgs V))
    (hnd : (l.map SetArgs.key).Nodup) :
    ((NewCache : cache V).SetAll l).Keys = (l.length : Int) ∧
      ∀ c : cache V, c.Keys = (c.items.keys.length : Int) := by
  refine ⟨?_, Keys_eq_keys_length⟩
  have h := SetAll_Keys l (NewCache : cache V) hnd
    (fun a _ => by simp [NewCache])
  rw [h]
  simp [cache.Keys, NewCache]

theorem keys_counts_distinct_sets_witness :
    (([⟨0, ascii "hello", some 1, 5 * Second⟩, ⟨0, ascii "int", some 5, -Second⟩,
        ⟨0, ascii "float", none, 0⟩] : List (SetArgs Nat)).map SetArgs.key).Nodup ∧
      (((NewCache : cache Nat).SetAll
          [⟨0, ascii "hello", some 1, 5 * Second⟩, ⟨0, ascii "int", some 5, -Second⟩,
            ⟨0, ascii "float", none, 0⟩]).Keys = ((3 : Nat) : Int) ∧
        ∀ c : cache Nat, c.Keys = (c.items.keys.length : Int)) :=
  ⟨by decide,
    keys_counts_distinct_sets
      [⟨0, ascii "hello", some 1, 5 * Second⟩, ⟨0, ascii "int", some 5, -Second⟩,
        ⟨0, ascii "float", none, 0⟩] (by decide)⟩

/-- C12: after `Set(k, v1, t1)` followed by `Set(k, v2, t2)` at clock time `t0`, the
store is the one a single `Set(k, v2, t2)` at `t0` leaves: the entry of `k` holds `v2`
and the expiry `Unix(t0 + t2)`, nothing of `v1`, `t1` or the first clock reading
remains, and `Keys()` is the same as after the first `Set`. -/
theorem reinsert_replaces {V : Type} (c : cache V) (k : GoString) (v1 v2 : Option V)
    (t1 t2 ta t0 : Int) :
    (c.Set ta k v1 t1).Set t0 k v2 t2 = c.Set t0 k v2 t2 ∧
      ((c.Set ta k v1 t1).Set t0 k v2 t2).items.lookup k
        = some { Val := v2, Expire := Unix (t0 + t2) } ∧
      ((c.Set ta k v1 t1).Set t0 k v2 t2).Keys = (c.Set ta k v1 t1).Keys := by
  refine ⟨?_, ?_, ?_⟩
  · simp [cache.Set, isOutOfMemeory_eq_false, AList.insert_insert]
  · rw [Set_items, AList.lookup_insert]
    rfl
  · rw [Keys_Set, if_pos]
    rw [Set_items, AList.mem_insert]
    exact Or.inl rfl

/-- C19: `Set(k, v, ttl)` leaves the entry of every key other than `k` and `maxMemory`
unchanged; `Keys()` grows by exactly 1 when `k` was absent and stays the same when `k`
was present. -/
theorem set_touches_one_key {V : Type} (c : cache V) (now : Int) (k : GoString)
    (v : Option V) (t : Int) :
    (∀ k2 : GoString, k2 ≠ k → (c.Set now k v t).items.lookup k2 = c.items.lookup k2) ∧
      (c.Set now k v t).maxMemory = c.maxMemory ∧
      (k ∉ c.items → (c.Set now k v t).Keys = c.Keys + 1) ∧
      (k ∈ c.items → (c.Set now k v t).Keys = c.Keys) := by
  refine ⟨?_, Set_maxMemory c now k v t, ?_, ?_⟩
  · intro k2 hk
    rw [Set_items]
    exact AList.lookup_insert_ne hk
  · intro h
    rw [Keys_Set, if_neg h]
  · intro h
    rw [Keys_Set, if_pos h]

theorem set_touches_one_key_witness :
    ascii "int" ≠ ascii "hello" ∧ ascii "hello" ∉ (NewCache : cache String).items ∧
      ((NewCache : cache String).Set 0 (ascii "hello") (some "world") (5 * Second)).items.lookup
          (ascii "int") = (NewCache : cache String).items.lookup (ascii "int") ∧
      ((NewCache : cache String).Set 0 (ascii "hello") (some "world") (5 * Second)).Keys
        = (NewCache : cache String).Keys + 1 :=
  ⟨by decide, by simp [NewCache],
    (set_touches_one_key (NewCache : cache String) 0 (ascii "hello") (some "world")
      (5 * Second)).1 (ascii "int") (by decide),
    (set_touches_one_key (NewCache : cache String) 0 (ascii "hello") (some "world")
      (5 * Second)).2.2.1 (by simp [NewCache])⟩

/-! ## The footprint of Get -/

theorem Get_fst {V : Type} (c : cache V) (now : Int) (k : GoString) :
    (c.Get now k).1
      = match c.items.lookup k with
        | none => (none, false)
        | some i => if i.Expired now then (none, false) else (i.Val, true) := by
  unfold cache.Get
  cases c.items.lookup k with
  | none => rfl
  | some i => by_cases h : i.Expired now = true <;> simp [h]

/-- C17: `Get(k)` on an absent key or on an unexpired key leaves the whole store (every
entry's value and `Expire`, and `maxMemory`) unchanged, and on an unexpired key it
returns the stored value; `Get(k)` on an expired key removes `k` and nothing else:
every other entry and `maxMemory` are unchanged. -/
theorem get_footprint {V : Type} (c : cache V) (now : Int) (k : GoString) :
    (k ∉ c.items → c.Get now k = ((none, false), c)) ∧
      (∀ i : Item V, c.items.lookup k = some i → i.Expired now = false →
        c.Get now k = ((i.Val, true), c)) ∧
      (∀ i : Item V, c.items.lookup k = some i → i.Expired now = true →
        (c.Get now k).1 = (none, false) ∧
          (c.Get now k).2.items = c.items.erase k ∧
          k ∉ (c.Get now k).2.items ∧
          (∀ k2 : GoString, k2 ≠ k → (c.Get now k).2.items.lookup k2 = c.items.lookup k2) ∧
          (c.Get now k).2.maxMemory = c.maxMemory) := by
  refine ⟨Get_of_not_mem c now k, ?_, ?_⟩
  · intro i hi hexp
    unfold cache.Get
    rw [hi]
    simp [hexp]
  · intro i hi hexp
    have hG : c.Get now k = ((none, false), { c with items := c.items.erase k }) := by
      unfold cache.Get
      rw [hi]
      simp [hexp]
    rw [hG]
    refine ⟨rfl, rfl, ?_, ?_, rfl⟩
    · exact fun hk => ((AList.mem_erase).mp hk).1 rfl
    · intro k2 hk
      exact AList.lookup_erase_ne hk

theorem get_footprint_witness :
    ascii "int" ∉ ((NewCache : cache String).Set 0 (ascii "hello") (some "world")
        (2 * Second)).items ∧
      ((NewCache : cache String).Set 0 (ascii "hello") (some "world") (2 * Second)).Get
          (3 * Second) (ascii "int")
        = ((none, false),
            (NewCache : cache String).Set 0 (ascii "hello") (some "world") (2 * Second)) :=
  ⟨by decide,
    (get_footprint ((NewCache : cache String).Set 0 (ascii "hello") (some "world")
      (2 * Second)) (3 * Second) (ascii "int")).1 (by decide)⟩

/-! ## The capacity ceiling is advisory -/

theorem call_maxMemory {V : Type} (c : cache V) (m : Int) (op : Call V) :
    ({ c with maxMemory := m } : cache V).call op
      = ((c.call op).1, { (c.call op).2 with maxMemory := m }) := by
  cases op with
  | Set now key val expire =>
    simp [cache.call, cache.Set, isOutOfMemeory_eq_false]
  | Get now key =>
    simp only [cache.call, cache.Get]
    cases c.items.lookup key with
    | none => rfl
    | some i => by_cases h : i.Expired now = true <;> simp [h]
  | Del key =>
    simp only [cache.call, cache.Del]
    cases c.items.lookup key <;> rfl
  | Exists key => rfl
  | Flush => rfl
  | Keys => rfl

theorem run_maxMemory {V : Type} (ops : List (Call V)) : ∀ (c : cache V) (m : Int),
    ({ c with maxMemory := m } : cache V).run ops
      = ((c.run ops).1, { (c.run ops).2 with maxMemory := m }) := by
  induction ops with
  | nil => intro c m; rfl
  | cons op rest ih =>
    intro c m
    simp only [cache.run]
    rw [call_maxMemory]
    simp only
    rw [ih]

/-- C13: `isOutOfMemeory` returns false for every store state, so `Set` always writes
its entry whatever ceiling is configured; and a store and the same store with any
other `maxMemory` give the same replies and end with the same items map for every
sequence of `Set`, `Get`, `Del`, `Exists`, `Flush` and `Keys` run at the same clock
readings. -/
theorem capacity_is_advisory {V : Type} (c : cache V) (m : Int) :
    (∀ c2 : cache V, c2.isOutOfMemeory = false) ∧
      (∀ (now : Int) (k : GoString) (v : Option V) (t : Int),
        (({ c with maxMemory := m } : cache V).Set now k v t).items.lookup k
          = some { Val := v, Expire := Unix (now + t) }) ∧
      (∀ ops : List (Call V),
        (({ c with maxMemory := m } : cache V).run ops).1 = (c.run ops).1 ∧
          (({ c with maxMemory := m } : cache V).run ops).2.items = (c.run ops).2.items) := by
  refine ⟨isOutOfMemeory_eq_false, ?_, ?_⟩
  · intro now k v t
    rw [Set_items, AList.lookup_insert]
    rfl
  · intro ops
    rw [run_maxMemory]
    exact ⟨rfl, rfl⟩

/-! ## The sweep: what it removes -/

/-- The loop removes exactly the keys of which some visit finds the entry expired, and
leaves every other entry as it is. -/
theorem deleteExpiredLoop_lookup {V : Type} (visits : List (GoString × Int)) :
    ∀ (items : AList (fun _ : GoString => Item V)) (k : GoString),
      (Swept items visits k → (deleteExpiredLoop items visits).lookup k = none) ∧
        (¬ Swept items visits k →
          (deleteExpiredLoop items visits).lookup k = items.lookup k) := by
  induction visits with
  | nil =>
    intro items k
    refine ⟨fun h => ?_, fun _ => rfl⟩
    obtain ⟨p, hp, _⟩ := h
    simp at hp
  | cons p rest ih =>
    intro items k
    obtain ⟨key, now⟩ := p
    have hnone : ∀ items2 : AList (fun _ : GoString => Item V), items2.lookup k = none →
        (deleteExpiredLoop items2 rest).lookup k = none := by
      intro items2 h2
      by_cases hs : Swept items2 rest k
      · exact (ih items2 k).1 hs
      · rw [(ih items2 k).2 hs, h2]
    have hsame : ∀ items2 : AList (fun _ : GoString => Item V),
        items2.lookup k = items.lookup k → (Swept items2 rest k ↔ Swept items rest k) := by
      intro items2 h2
      unfold Swept
      rw [h2]
    have hkeep : (¬ ∃ i : Item V, key = k ∧ items.lookup k = some i ∧ i.Expired now = true) →
        (Swept items ((key, now) :: rest) k ↔ Swept items rest k) := by
      intro hno
      constructor
      · rintro ⟨q, hq, hqk, i, hi, he⟩
        rcases List.mem_cons.mp hq with h | h
        · subst h
          exact absurd ⟨i, hqk, hi, he⟩ hno
        · exact ⟨q, h, hqk, i, hi, he⟩
      · rintro ⟨q, hq, hqk, i, hi, he⟩
        exact ⟨q, List.mem_cons_of_mem _ hq, hqk, i, hi, he⟩
    cases hl : items.lookup key with
    | none =>
      have e : deleteExpiredLoop items ((key, now) :: rest) = deleteExpiredLoop items rest := by
        simp only [deleteExpiredLoop, hl]
      have hno : ¬ ∃ i : Item V, key = k ∧ items.lookup k = some i ∧ i.Expired now = true := by
        rintro ⟨i, hk, hi, _⟩
        subst hk
        rw [hl] at hi
        exact Option.noConfusion hi
      rw [e, hkeep hno]
      exact ih items k
    | some item =>
      by_cases hexp : item.Expired now = true
      · have e : deleteExpiredLoop items ((key, now) :: rest)
            = deleteExpiredLoop (items.erase key) rest := by
          simp only [deleteExpiredLoop, hl, hexp, if_true]
        rw [e]
        by_cases hk : key = k
        · subst hk
          have hsw : Swept items ((key, now) :: rest) key :=
            ⟨(key, now), List.mem_cons_self _ _, rfl, item, hl, hexp⟩
          refine ⟨fun _ => hnone _ (AList.lookup_erase key items), fun h => absurd hsw h⟩
        · have hlk : (items.erase key).lookup k = items.lookup k :=
            AList.lookup_erase_ne (fun h => hk h.symm)
          have hno : ¬ ∃ i : Item V, key = k ∧ items.lookup k = some i ∧
              i.Expired now = true := fun ⟨_, h, _⟩ => hk h
          rw [hkeep hno, ← hsame _ hlk, ← hlk]
          exact ih (items.erase key) k
      · have e : deleteExpiredLoop items ((key, now) :: rest)
            = deleteExpiredLoop items rest := by
          simp only [deleteExpiredLoop, hl, hexp]
          rfl
        have hno : ¬ ∃ i : Item V, key = k ∧ items.lookup k = some i ∧
            i.Expired now = true := by
          rintro ⟨i, hk, hi, he⟩
          subst hk
          rw [hl] at hi
          exact hexp ((Option.some.inj hi) ▸ he)
        rw [e, hkeep hno]
        exact ih items k

theorem deleteExpired_maxMemory {V : Type} (c : cache V) (visits : List (GoString × Int)) :
    (c.deleteExpired visits).maxMemory = c.maxMemory := rfl

/-- With one clock reading `now` for all visits, a key is swept exactly when it is
visited and its entry has expired at `now`. -/
theorem Swept_const {V : Type} (items : AList (fun _ : GoString => Item V))
    (order : List GoString) (now : Int) (k : GoString) :
    Swept items (order.map (fun key => (key, now))) k ↔
      k ∈ order ∧ ∃ i : Item V, items.lookup k = some i ∧ i.Expired now = true := by
  unfold Swept
  constructor
  · rintro ⟨p, hp, hk, i, hi, he⟩
    obtain ⟨key, hkey, rfl⟩ := List.mem_map.mp hp
    exact ⟨hk ▸ hkey, i, hi, he⟩
  · rintro ⟨hk, i, hi, he⟩
    exact ⟨(k, now), List.mem_map.mpr ⟨k, hk, rfl⟩, rfl, i, hi, he⟩

theorem mem_of_lookup_eq_some {V : Type} (items : AList (fun _ : GoString => Item V))
    (k : GoString) (i : Item V) (h : items.lookup k = some i) : k ∈ items :=
  AList.lookup_isSome.mp (by simp [h])

/-- C14: with the clock reading `now` held constant during the sweep and every entry
visited once, in any order, the map after `deleteExpired` contains exactly the entries
of the original map whose `Expire` is not before `now` in Unix seconds, each with its
value and expiry unchanged; `maxMemory` is unchanged. -/
theorem sweep_postcondition {V : Type} (c : cache V) (now : Int) (order : List GoString)
    (hperm : order.Perm c.items.keys) :
    (∀ (k : GoString) (i : Item V),
        (c.deleteExpired (order.map (fun key => (key, now)))).items.lookup k = some i ↔
          (c.items.lookup k = some i ∧ ¬ i.Expire < Unix now)) ∧
      (c.deleteExpired (order.map (fun key => (key, now)))).maxMemory = c.maxMemory := by
  refine ⟨?_, rfl⟩
  intro k i
  have hL := deleteExpiredLoop_lookup (order.map (fun key => (key, now))) c.items k
  show (deleteExpiredLoop c.items (order.map (fun key => (key, now)))).lookup k = some i ↔ _
  by_cases hs : Swept c.items (order.map (fun key => (key, now))) k
  · rw [hL.1 hs]
    obtain ⟨_, i2, hi2, he⟩ := (Swept_const c.items order now k).mp hs
    constructor
    · intro h
      exact Option.noConfusion h
    · rintro ⟨hi, hne⟩
      rw [hi2] at hi
      have : i2 = i := Option.some.inj hi
      subst this
      simp [Item.Expired] at he
      exact absurd he hne
  · rw [hL.2 hs]
    constructor
    · intro hi
      refine ⟨hi, fun hlt => hs ?_⟩
      have hk : k ∈ order :=
        hperm.symm.subset (AList.mem_keys.mp (mem_of_lookup_eq_some c.items k i hi))
      exact (Swept_const c.items order now k).mpr ⟨hk, i, hi, by simp [Item.Expired, hlt]⟩
    · exact fun h => h.1

theorem sweep_postcondition_witness :
    ([ascii "hello"] : List GoString).Perm
        ((NewCache : cache String).Set 0 (ascii "hello") (some "world") (2 * Second)).items.keys ∧
      ((∀ (k : GoString) (i : Item String),
          (((NewCache : cache String).Set 0 (ascii "hello") (some "world")
              (2 * Second)).deleteExpired
            ([ascii "hello"].map (fun key => (key, 3 * Second)))).items.lookup k = some i ↔
            (((NewCache : cache String).Set 0 (ascii "hello") (some "world")
                (2 * Second)).items.lookup k = some i ∧ ¬ i.Expire < Unix (3 * Second))) ∧
        (((NewCache : cache String).Set 0 (ascii "hello") (some "world")
            (2 * Second)).deleteExpired
          ([ascii "hello"].map (fun key => (key, 3 * Second)))).maxMemory
          = ((NewCache : cache String).Set 0 (ascii "hello") (some "world")
            (2 * Second)).maxMemory) :=
  ⟨List.Perm.refl _,
    sweep_postcondition
      ((NewCache : cache String).Set 0 (ascii "hello") (some "world") (2 * Second))
      (3 * Second) [ascii "hello"] (List.Perm.refl _)⟩

/-- C15, refuted as stated: two entries that both expire at Unix second 1 are visited
at the non-decreasing clock readings 1 s and 2 s.  The entry visited second is
removed although it has not expired at the first reading, and which of the two entries
survives depends on the order of the visits. -/
theorem sweep_single_timestamp_counterexample :
    ((((NewCache : cache String).Set 0 (ascii "a") (some "x") Second).Set 0 (ascii "b")
        (some "y") Second).items.lookup (ascii "b")
        = some { Val := some "y", Expire := 1 }) ∧
      (({ Val := some "y", Expire := 1 } : Item String).Expired (1 * Second) = false) ∧
      ((((NewCache : cache String).Set 0 (ascii "a") (some "x") Second).Set 0 (ascii "b")
        (some "y") Second).deleteExpired
          [(ascii "a", 1 * Second), (ascii "b", 2 * Second)]).items.lookup (ascii "b") = none ∧
      ((((NewCache : cache String).Set 0 (ascii "a") (some "x") Second).Set 0 (ascii "b")
        (some "y") Second).deleteExpired
          [(ascii "b", 1 * Second), (ascii "a", 2 * Second)]).items.lookup (ascii "b")
        = some { Val := some "y", Expire := 1 } := by
  decide

/-- C15, amended: `deleteExpired` captures no clock reading at scan start; it decides
each entry against the reading taken when that entry is visited.  With every entry
visited once, in any order and with any readings, an entry is removed when its
`Expire` is before the Unix second of its own reading and kept unchanged otherwise;
when all readings fall in the same Unix second as a reading `first`, the resulting map
is the original map filtered against `first`, whatever the order of the visits. -/
theorem sweep_per_entry_clock {V : Type} (c : cache V) (visits : List (GoString × Int))
    (hperm : (visits.map Prod.fst).Perm c.items.keys) :
    (∀ (k : GoString) (now : Int) (i : Item V), (k, now) ∈ visits →
        c.items.lookup k = some i →
        (c.deleteExpired visits).items.lookup k
          = if i.Expire < Unix now then none else some i) ∧
      (∀ first : Int, (∀ p ∈ visits, Unix p.2 = Unix first) →
        ∀ (k : GoString) (i : Item V),
          (c.deleteExpired visits).items.lookup k = some i ↔
            (c.items.lookup k = some i ∧ ¬ i.Expire < Unix first)) ∧
      (c.deleteExpired visits).maxMemory = c.maxMemory := by
  have hnd : (visits.map Prod.fst).Nodup := hperm.nodup_iff.mpr c.items.keys_nodup
  refine ⟨?_, ?_, rfl⟩
  · intro k now i hv hi
    have hL := deleteExpiredLoop_lookup visits c.items k
    show (deleteExpiredLoop c.items visits).lookup k = _
    by_cases hlt : i.Expire < Unix now
    · rw [if_pos hlt]
      exact hL.1 ⟨(k, now), hv, rfl, i, hi, by simp [Item.Expired, hlt]⟩
    · rw [if_neg hlt, ← hi]
      refine hL.2 ?_
      rintro ⟨p, hp, hpk, i2, hi2, he⟩
      have hpe : p = (k, now) := List.inj_on_of_nodup_map hnd hp hv hpk
      rw [hi] at hi2
      have : i = i2 := Option.some.inj hi2
      subst this
      rw [hpe] at he
      simp [Item.Expired] at he
      exact hlt he
  · intro first hsame k i
    have hL := deleteExpiredLoop_lookup visits c.items k
    show (deleteExpiredLoop c.items visits).lookup k = some i ↔ _
    by_cases hs : Swept c.items visits k
    · rw [hL.1 hs]
      obtain ⟨p, hp, _, i2, hi2, he⟩ := hs
      constructor
      · intro h
        exact Option.noConfusion h
      · rintro ⟨hi, hne⟩
        rw [hi2] at hi
        have : i2 = i := Option.some.inj hi
        subst this
        simp [Item.Expired, hsame p hp] at he
        exact absurd he hne
    · rw [hL.2 hs]
      constructor
      · intro hi
        refine ⟨hi, fun hlt => hs ?_⟩
        have hk : k ∈ visits.map Prod.fst :=
          hperm.symm.subset (AList.mem_keys.mp (mem_of_lookup_eq_some c.items k i hi))
        obtain ⟨p, hp, hpk⟩ := List.mem_map.mp hk
        exact ⟨p, hp, hpk, i, hi, by simp [Item.Expired, hsame p hp, hlt]⟩
      · exact fun h => h.1

theorem sweep_per_entry_clock_witness :
    (([(ascii "a", 1 * Second), (ascii "b", 2 * Second)] : List (GoString × Int)).map
        Prod.fst).Perm
        (((NewCache : cache String).Set 0 (ascii "b") (some "y") Second).Set 0 (ascii "a")
          (some "x") Second).items.keys ∧
      (ascii "b", 2 * Second) ∈
        ([(ascii "a", 1 * Second), (ascii "b", 2 * Second)] : List (GoString × Int)) ∧
      (((NewCache : cache String).Set 0 (ascii "b") (some "y") Second).Set 0 (ascii "a")
          (some "x") Second).items.lookup (ascii "b")
        = some { Val := some "y", Expire := 1 } ∧
      ((((NewCache : cache String).Set 0 (ascii "b") (some "y") Second).Set 0 (ascii "a")
          (some "x") Second).deleteExpired
            [(ascii "a", 1 * Second), (ascii "b", 2 * Second)]).items.lookup (ascii "b")
        = if (({ Val := some "y", Expire := 1 } : Item String).Expire < Unix (2 * Second))
          then none else some { Val := some "y", Expire := 1 } :=
  ⟨List.Perm.refl _, by decide, by decide,
    (sweep_per_entry_clock
      (((NewCache : cache String).Set 0 (ascii "b") (some "y") Second).Set 0 (ascii "a")
        (some "x") Second)
      [(ascii "a", 1 * Second), (ascii "b", 2 * Second)] (List.Perm.refl _)).1
      (ascii "b") (2 * Second) { Val := some "y", Expire := 1 } (by decide) (by decide)⟩

/-- C18: `Get(k)` at the clock reading `now` returns the same (value, found) pair
whether or not `deleteExpired` ran immediately before it with the same reading `now`
at every visit, whatever keys the sweep visited and in whatever order. -/
theorem lazy_and_active_agree {V : Type} (c : cache V) (now : Int) (order : List GoString)
    (k : GoString) :
    ((c.deleteExpired (order.map (fun key => (key, now)))).Get now k).1
      = (c.Get now k).1 := by
  rw [Get_fst, Get_fst]
  have hL := deleteExpiredLoop_lookup (order.map (fun key => (key, now))) c.items k
  show (match (deleteExpiredLoop c.items (order.map (fun key => (key, now)))).lookup k with
    | none => (none, false)
    | some i => if i.Expired now then (none, false) else (i.Val, true)) = _
  by_cases hs : Swept c.items (order.map (fun key => (key, now))) k
  · rw [hL.1 hs]
    obtain ⟨_, i, hi, he⟩ := (Swept_const c.items order now k).mp hs
    rw [hi]
    simp [he]
  · rw [hL.2 hs]

/-! ## Locking: the unguarded read of Set -/

/-- C16, the defect: `Set` reads `len(c.items)` in `isOutOfMemeory` before it takes the
lock, so this access is not covered by the mutex, while every other method touches
`items` only under the lock; hence two concurrent calls of `Set`, or a `Set` concurrent
with a `Get` or a `Del`, have a data race on `items`. -/
theorem set_reads_items_without_lock :
    Method.Set.unguarded = [Step.readItems] ∧
      (∀ m : Method, m ≠ Method.Set → m.unguarded = []) ∧
      dataRace Method.Set Method.Set = true ∧
      dataRace Method.Set Method.Get = true ∧
      dataRace Method.Set Method.Del = true ∧
      dataRace Method.Get Method.Del = false := by
  refine ⟨by decide, ?_, by decide, by decide, by decide, by decide⟩
  intro m hm
  cases m <;> first | exact absurd rfl hm | decide

end CodCache
